import Mathlib

/-!
# Verification of the DAS4Whales f-k filter subsystem (`das4whales/dsp.py`)

This file gives a shallow embedding of the frequency-wavenumber (f-k) filter
design and application functions of `dsp.py` and proves/refutes the frozen
specification claims about them.

Conventions:
* numpy float arithmetic is modelled by exact real arithmetic (`ℝ`); the
  special IEEE values needed for the SNR claim are modelled by an explicit
  value type `NpVal`.
* 1-D axes are total functions `ℕ → ℝ`; the array length is an explicit
  parameter.  2-D arrays in the spectral-application model are
  `Fin nx → Fin ns → ℂ` so that the discrete Fourier sums are finite sums.
-/

open scoped BigOperators

noncomputable section

/-- `np.fft.fftfreq n d` : the j-th FFT sample frequency,
`[0, 1, ..., ceil(n/2)-1, -floor(n/2), ..., -1] / (n*d)`. -/
def fftfreq (n : ℕ) (d : ℝ) (j : ℕ) : ℝ :=
  if j < n - n / 2 then (j : ℝ) / (n * d) else ((j : ℝ) - n) / (n * d)

/-- Index map of `np.fft.fftshift` for a length-`n` axis:
`fftshift(x)[i] = x[(i + (n - n/2)) % n]` (i.e. `np.roll(x, n/2)`). -/
def fftshiftIdx (n i : ℕ) : ℕ := (i + (n - n / 2)) % n

/-- The zero-centered frequency axis `np.fft.fftshift(np.fft.fftfreq(ns, d=1/fs))`
used by every filter-design function. -/
def freqAx (n : ℕ) (fs : ℝ) (j : ℕ) : ℝ := fftfreq n (1 / fs) (fftshiftIdx n j)

/-- The zero-centered wavenumber axis
`np.fft.fftshift(np.fft.fftfreq(nx, d=step*dx))`. -/
def knumAx (n : ℕ) (step : ℕ) (dx : ℝ) (i : ℕ) : ℝ :=
  fftfreq n ((step : ℝ) * dx) (fftshiftIdx n i)

/-- Closed form of the shifted axis: for `j < n` the j-th entry of
`fftshift(fftfreq(n, d))` is `(j - n/2) / (n*d)` (with `n/2` the floor). -/
theorem fftshift_fftfreq_eq (n : ℕ) (d : ℝ) (j : ℕ) (hj : j < n) :
    fftfreq n d (fftshiftIdx n j) = ((j : ℝ) - (n / 2 : ℕ)) / (n * d) := by
  have hhalf : n / 2 ≤ n := Nat.div_le_self n 2
  unfold fftfreq fftshiftIdx
  rcases lt_or_le j (n / 2) with hlt | hge
  · -- the index `j + (n - n/2)` stays below `n`, no wrap-around
    have hidx : j + (n - n / 2) < n := by omega
    rw [Nat.mod_eq_of_lt hidx]
    have hcond : ¬ (j + (n - n / 2) < n - n / 2) := by omega
    rw [if_neg hcond, Nat.cast_add, Nat.cast_sub hhalf]
    ring_nf
  · -- the index wraps: `(j + (n - n/2)) % n = j - n/2`
    have hidx : (j + (n - n / 2)) % n = j - n / 2 := by
      have h1 : j + (n - n / 2) = (j - n / 2) + n := by omega
      rw [h1, Nat.add_mod_right, Nat.mod_eq_of_lt (by omega)]
    rw [hidx]
    have hcond : j - n / 2 < n - n / 2 := by omega
    rw [if_pos hcond, Nat.cast_sub hge]

/-- The four-region piecewise gain of `fk_filter_design` as a function of the
wavenumber `k` and frequency `f` at one grid point.  The `if`-chain encodes the
source's sequential masked assignments (a later assignment overwrites an
earlier one, so it gets an earlier branch here):
row zeroed when `|k| < 0.005`; else, with `speed = |f/k|`,
`0` for `speed < cs_min`, `0` for `speed >= cs_max`, the falling half-sine on
`[cp_max, cs_max]`, the rising half-sine on `[cs_min, cp_min]`, else `1`. -/
def fkGain (cs_min cp_min cp_max cs_max k f : ℝ) : ℝ :=
  if |k| < 0.005 then 0
  else if |f / k| < cs_min then 0
  else if cs_max ≤ |f / k| then 0
  else if cp_max ≤ |f / k| ∧ |f / k| ≤ cs_max then
    1 - Real.sin (0.5 * Real.pi * (|f / k| - cp_max) / (cs_max - cp_max))
  else if cs_min ≤ |f / k| ∧ |f / k| ≤ cp_min then
    Real.sin (0.5 * Real.pi * (|f / k| - cs_min) / (cp_min - cs_min))
  else 1

/-- `fk_filter_design(trace_shape, selected_channels, dx, fs, cs_min, cp_min,
cp_max, cs_max)[i, j]` : the rectangular f-k mask entry at wavenumber row `i`
and frequency column `j` (`step = selected_channels[2]`). -/
def fk_filter_design (nx ns step : ℕ) (dx fs cs_min cp_min cp_max cs_max : ℝ)
    (i j : ℕ) : ℝ :=
  fkGain cs_min cp_min cp_max cs_max (knumAx nx step dx i) (freqAx ns fs j)

/-- The gain is invariant under the point reflection `(k, f) ↦ (-k, -f)`:
both `|k|` and `speed = |f/k|` are unchanged. -/
theorem fkGain_neg_neg (cs_min cp_min cp_max cs_max k f : ℝ) :
    fkGain cs_min cp_min cp_max cs_max (-k) (-f) =
    fkGain cs_min cp_min cp_max cs_max k f := by
  unfold fkGain
  rw [abs_neg, neg_div_neg_eq]

/-- Instance of the closed axis form for the frequency axis. -/
theorem freqAx_eq (n : ℕ) (fs : ℝ) (j : ℕ) (hj : j < n) :
    freqAx n fs j = ((j : ℝ) - (n / 2 : ℕ)) / (n * (1 / fs)) :=
  fftshift_fftfreq_eq n (1 / fs) j hj

/-- Instance of the closed axis form for the wavenumber axis. -/
theorem knumAx_eq (n step : ℕ) (dx : ℝ) (i : ℕ) (hi : i < n) :
    knumAx n step dx i = ((i : ℝ) - (n / 2 : ℕ)) / (n * ((step : ℝ) * dx)) :=
  fftshift_fftfreq_eq n ((step : ℝ) * dx) i hi

/-- A half-sine ramp value lies in `[0, 1]` on its transition interval. -/
theorem sin_ramp_mem (x a b : ℝ) (hab : a < b) (hx1 : a ≤ x) (hx2 : x ≤ b) :
    0 ≤ Real.sin (0.5 * Real.pi * (x - a) / (b - a)) ∧
    Real.sin (0.5 * Real.pi * (x - a) / (b - a)) ≤ 1 := by
  have hba : (0:ℝ) < b - a := sub_pos.mpr hab
  have ht0 : 0 ≤ (x - a) / (b - a) := div_nonneg (by linarith) hba.le
  have ht1 : (x - a) / (b - a) ≤ 1 := (div_le_one hba).mpr (by linarith)
  have harg : 0.5 * Real.pi * (x - a) / (b - a) = 0.5 * Real.pi * ((x - a) / (b - a)) := by
    ring
  have hpi := Real.pi_pos
  have h0 : 0 ≤ 0.5 * Real.pi * ((x - a) / (b - a)) := by positivity
  have h1 : 0.5 * Real.pi * ((x - a) / (b - a)) ≤ Real.pi := by
    nlinarith
  constructor
  · rw [harg]
    exact Real.sin_nonneg_of_nonneg_of_le_pi h0 h1
  · exact Real.sin_le_one _

/-- Every value of the rectangular gain lies in `[0, 1]` whenever the speed
band is properly ordered with nondegenerate transition bands. -/
theorem fkGain_mem_unit (cs_min cp_min cp_max cs_max k f : ℝ)
    (h4 : cs_min < cp_min) (h5 : cp_max < cs_max) :
    0 ≤ fkGain cs_min cp_min cp_max cs_max k f ∧
    fkGain cs_min cp_min cp_max cs_max k f ≤ 1 := by
  unfold fkGain
  split_ifs with hk hD hC hB hA
  · exact ⟨le_refl 0, by norm_num⟩
  · exact ⟨le_refl 0, by norm_num⟩
  · exact ⟨le_refl 0, by norm_num⟩
  · have := sin_ramp_mem (|f / k|) cp_max cs_max h5 hB.1 hB.2
    constructor <;> linarith [this.1, this.2]
  · exact sin_ramp_mem (|f / k|) cs_min cp_min h4 hA.1 hA.2
  · exact ⟨by norm_num, le_refl 1⟩

/-- C1: for every trace shape, channel step, dx, fs and speed band with
`cs_min ≤ cp_min ≤ cp_max ≤ cs_max`, `cs_min < cp_min` and `cp_max < cs_max`,
every entry of the mask returned by `fk_filter_design` lies in `[0, 1]`. -/
theorem fk_mask_values_in_unit_interval
    (nx ns step : ℕ) (dx fs cs_min cp_min cp_max cs_max : ℝ)
    (h1 : cs_min ≤ cp_min) (h2 : cp_min ≤ cp_max) (h3 : cp_max ≤ cs_max)
    (h4 : cs_min < cp_min) (h5 : cp_max < cs_max)
    (i j : ℕ) (hi : i < nx) (hj : j < ns) :
    0 ≤ fk_filter_design nx ns step dx fs cs_min cp_min cp_max cs_max i j ∧
    fk_filter_design nx ns step dx fs cs_min cp_min cp_max cs_max i j ≤ 1 :=
  fkGain_mem_unit cs_min cp_min cp_max cs_max _ _ h4 h5

/-- Witness for C1 at the concrete configuration
`(nx, ns) = (4, 8)`, `step = dx = 1`, `fs = 10`, speed band `(1, 2, 3, 4)`. -/
theorem fk_mask_values_in_unit_interval_witness :
    (1:ℝ) ≤ 2 ∧ (2:ℝ) ≤ 3 ∧ (3:ℝ) ≤ 4 ∧ (1:ℝ) < 2 ∧ (3:ℝ) < 4 ∧
    (0 ≤ fk_filter_design 4 8 1 1 10 1 2 3 4 0 0 ∧
     fk_filter_design 4 8 1 1 10 1 2 3 4 0 0 ≤ 1) :=
  ⟨by norm_num, by norm_num, by norm_num, by norm_num, by norm_num,
   fk_mask_values_in_unit_interval 4 8 1 1 10 1 2 3 4
     (by norm_num) (by norm_num) (by norm_num) (by norm_num) (by norm_num)
     0 0 (by norm_num) (by norm_num)⟩

/-- C5 counterexample: for the even-length axes `(nx, ns) = (2, 8)` with
`fs = 10`, `dx = step = 1` and speed band `(1, 2, 3, 4)`, the mask is not
symmetric under `(i, j) ↦ (nx-1-i, ns-1-j)` : the entry at `(0, 3)` equals `1`
(speed `2.5` is in the passband on wavenumber `-0.5`) while the reflected
entry at `(1, 4)` equals `0` (its wavenumber row is the `|k| < 0.005` row). -/
theorem fk_mask_point_symmetry_fails_even_axes :
    ¬ (fk_filter_design 2 8 1 1 10 1 2 3 4 0 3 =
       fk_filter_design 2 8 1 1 10 1 2 3 4 (2 - 1 - 0) (8 - 1 - 3)) := by
  have e1 : fk_filter_design 2 8 1 1 10 1 2 3 4 0 3 = 1 := by
    unfold fk_filter_design
    rw [knumAx_eq 2 1 1 0 (by norm_num), freqAx_eq 8 10 3 (by norm_num)]
    norm_num [fkGain, abs_of_pos, abs_of_neg]
  have e2 : fk_filter_design 2 8 1 1 10 1 2 3 4 (2 - 1 - 0) (8 - 1 - 3) = 0 := by
    show fk_filter_design 2 8 1 1 10 1 2 3 4 1 4 = 0
    unfold fk_filter_design
    rw [knumAx_eq 2 1 1 1 (by norm_num)]
    norm_num [fkGain]
  rw [e1, e2]
  norm_num

/-- C5 amended: when both axis lengths are odd, the rectangular mask is
symmetric under the point reflection `(f, k) ↦ (-f, -k)`, i.e.
`mask[nx-1-i, ns-1-j] = mask[i, j]`; for even lengths the zero-centered axes
have no exact mirror index and the symmetry fails. -/
theorem fk_mask_point_symmetric_odd_axes
    (nx ns step : ℕ) (dx fs cs_min cp_min cp_max cs_max : ℝ)
    (hnx : Odd nx) (hns : Odd ns) (i j : ℕ) (hi : i < nx) (hj : j < ns) :
    fk_filter_design nx ns step dx fs cs_min cp_min cp_max cs_max
      (nx - 1 - i) (ns - 1 - j) =
    fk_filter_design nx ns step dx fs cs_min cp_min cp_max cs_max i j := by
  obtain ⟨t, ht⟩ := hnx
  obtain ⟨u, hu⟩ := hns
  have e1 : knumAx nx step dx (nx - 1 - i) = -(knumAx nx step dx i) := by
    rw [knumAx_eq nx step dx (nx - 1 - i) (by omega),
      knumAx_eq nx step dx i hi]
    have h2 : nx / 2 = t := by omega
    have h3 : nx - 1 - i = 2 * t - i := by omega
    rw [h2, h3, Nat.cast_sub (by omega)]
    push_cast
    ring
  have e2 : freqAx ns fs (ns - 1 - j) = -(freqAx ns fs j) := by
    rw [freqAx_eq ns fs (ns - 1 - j) (by omega), freqAx_eq ns fs j hj]
    have h2 : ns / 2 = u := by omega
    have h3 : ns - 1 - j = 2 * u - j := by omega
    rw [h2, h3, Nat.cast_sub (by omega)]
    push_cast
    ring
  unfold fk_filter_design
  rw [e1, e2]
  exact fkGain_neg_neg cs_min cp_min cp_max cs_max _ _

/-- Full evaluation of the C8 scenario mask
(`(nx, ns) = (4, 8)`, `fs = 10`, `dx = step = 1`, speed band `(1, 2, 3, 4)`):
the only nonzero entries are `(0, 3)` and `(0, 5)`, both equal to `1`. -/
theorem fkScenario_eval (i j : ℕ) (hi : i < 4) (hj : j < 8) :
    fk_filter_design 4 8 1 1 10 1 2 3 4 i j =
    if i = 0 ∧ (j = 3 ∨ j = 5) then 1 else 0 := by
  unfold fk_filter_design
  interval_cases i <;> interval_cases j <;>
    rw [knumAx_eq 4 1 1 _ (by norm_num), freqAx_eq 8 10 _ (by norm_num)] <;>
    norm_num [fkGain, abs_of_pos, abs_of_neg]

/-- C8 amended: every wavenumber row with `|k| < 0.005` is entirely zero (for
any shape and parameters); in the scenario `(4 × 8)`, `fs = 10`, `dx = 1`,
`step = 1`, band `(1, 2, 3, 4)`, the zero rows are rows 1, 2 and 3 — row 2
because `|k| < 0.005`, rows 1 and 3 because every speed there falls outside
`(cs_min, cs_max)` — row 0 equals `[0,0,0,1,0,1,0,0]`, and no entry lies
strictly between 0 and 1, so strictly-fractional values occur only in the
transition speed bands (vacuously). -/
theorem fk_mask_near_zero_wavenumber_rows_scenario :
    (∀ (nx ns step : ℕ) (dx fs cs_min cp_min cp_max cs_max : ℝ) (i j : ℕ),
       |knumAx nx step dx i| < 0.005 →
       fk_filter_design nx ns step dx fs cs_min cp_min cp_max cs_max i j = 0) ∧
    (∀ j : ℕ, j < 8 →
       fk_filter_design 4 8 1 1 10 1 2 3 4 1 j = 0 ∧
       fk_filter_design 4 8 1 1 10 1 2 3 4 2 j = 0 ∧
       fk_filter_design 4 8 1 1 10 1 2 3 4 3 j = 0) ∧
    (∀ j : ℕ, j < 8 →
       fk_filter_design 4 8 1 1 10 1 2 3 4 0 j =
         if j = 3 ∨ j = 5 then 1 else 0) ∧
    (∀ i j : ℕ, i < 4 → j < 8 →
       fk_filter_design 4 8 1 1 10 1 2 3 4 i j = 0 ∨
       fk_filter_design 4 8 1 1 10 1 2 3 4 i j = 1) := by
  refine ⟨?_, ?_, ?_, ?_⟩
  · intro nx ns step dx fs c1 c2 c3 c4 i j hk
    unfold fk_filter_design fkGain
    rw [if_pos hk]
  · intro j hj
    refine ⟨?_, ?_, ?_⟩ <;>
      · rw [fkScenario_eval _ j (by norm_num) hj]
        norm_num
  · intro j hj
    rw [fkScenario_eval 0 j (by norm_num) hj]
    norm_num
  · intro i j hi hj
    rw [fkScenario_eval i j hi hj]
    split_ifs <;> norm_num

/-- Witness for the amended C8: row 2 of the scenario mask has `|k| = 0`
below the `0.005` threshold, and its entries vanish. -/
theorem fk_mask_near_zero_wavenumber_rows_scenario_witness :
    |knumAx 4 1 1 2| < 0.005 ∧ fk_filter_design 4 8 1 1 10 1 2 3 4 2 0 = 0 := by
  have hk : |knumAx 4 1 1 2| < 0.005 := by
    rw [knumAx_eq 4 1 1 2 (by norm_num)]
    norm_num
  exact ⟨hk, fk_mask_near_zero_wavenumber_rows_scenario.1 4 8 1 1 10 1 2 3 4 2 0 hk⟩

/-- C8 counterexample: in the scenario, row 1 has `|k| = 0.25 ≥ 0.005` yet is
entirely zero, so the zero rows are not *exactly* the rows with
`|k| < 0.005`. -/
theorem fk_mask_scenario_zero_rows_not_exact :
    ¬ (|knumAx 4 1 1 1| < 0.005) ∧
    fk_filter_design 4 8 1 1 10 1 2 3 4 1 0 = 0 ∧
    fk_filter_design 4 8 1 1 10 1 2 3 4 1 1 = 0 ∧
    fk_filter_design 4 8 1 1 10 1 2 3 4 1 2 = 0 ∧
    fk_filter_design 4 8 1 1 10 1 2 3 4 1 3 = 0 ∧
    fk_filter_design 4 8 1 1 10 1 2 3 4 1 4 = 0 ∧
    fk_filter_design 4 8 1 1 10 1 2 3 4 1 5 = 0 ∧
    fk_filter_design 4 8 1 1 10 1 2 3 4 1 6 = 0 ∧
    fk_filter_design 4 8 1 1 10 1 2 3 4 1 7 = 0 := by
  refine ⟨?_, ?_, ?_, ?_, ?_, ?_, ?_, ?_, ?_⟩
  · rw [knumAx_eq 4 1 1 1 (by norm_num)]
    norm_num [abs_of_neg]
  all_goals
    rw [fkScenario_eval 1 _ (by norm_num) (by norm_num)]
    norm_num

/-- Witness for the amended C5 at `(nx, ns) = (3, 5)`, entry `(0, 0)`. -/
theorem fk_mask_point_symmetric_odd_axes_witness :
    Odd 3 ∧ Odd 5 ∧
    fk_filter_design 3 5 1 1 10 1 2 3 4 (3 - 1 - 0) (5 - 1 - 0) =
      fk_filter_design 3 5 1 1 10 1 2 3 4 0 0 :=
  ⟨by decide, by decide,
   fk_mask_point_symmetric_odd_axes 3 5 1 1 10 1 2 3 4
     (by decide) (by decide) 0 0 (by norm_num) (by norm_num)⟩

/-! ## Hybrid bandpass f-k filters (`hybrid_filter_design`,
`hybrid_gs_filter_design`) -/

/-- `np.argmax(v >= c)` over the first `n` entries of `v`: the first index
satisfying the predicate, and `0` when no index does (numpy's argmax of an
all-`False` boolean array is `0`). -/
def argmaxGe (n : ℕ) (v : ℕ → ℝ) (c : ℝ) : ℕ :=
  sInf {j : ℕ | j < n ∧ c ≤ v j}

/-- Evaluation rule for `argmaxGe` when a first satisfying index exists. -/
theorem argmaxGe_eq (n : ℕ) (v : ℕ → ℝ) (c : ℝ) (k : ℕ)
    (hk : k < n ∧ c ≤ v k) (hmin : ∀ m, m < k → ¬(m < n ∧ c ≤ v m)) :
    argmaxGe n v c = k := by
  unfold argmaxGe
  refine le_antisymm (Nat.sInf_le hk) (not_lt.mp fun hlt => ?_)
  exact hmin _ hlt (Nat.sInf_mem (⟨k, hk⟩ : Set.Nonempty {j : ℕ | j < n ∧ c ≤ v j}))

/-- Evaluation rule for `argmaxGe` when no index satisfies the predicate. -/
theorem argmaxGe_eq_zero (n : ℕ) (v : ℕ → ℝ) (c : ℝ)
    (h : ¬ ∃ j, j < n ∧ c ≤ v j) : argmaxGe n v c = 0 := by
  unfold argmaxGe
  have he : {j : ℕ | j < n ∧ c ≤ v j} = ∅ := by
    ext j
    simp only [Set.mem_setOf_eq, Set.mem_empty_iff_false, iff_false]
    exact fun hj => h ⟨j, hj⟩
  rw [he, Nat.sInf_empty]

/-- The raised-cosine frequency response `H` of `hybrid_filter_design`
(taper width `df_taper = 4` Hz): zero initialisation, then sequential masked
assignments rising half-sine on `[fmin-4, fmin]`, passband `1` on
`[fmin, fmax]`, falling cosine on `[fmax, fmax+4]` (a later assignment
overwrites an earlier one). -/
def hybridH (fmin fmax f : ℝ) : ℝ :=
  if fmax ≤ f ∧ f ≤ fmax + 4 then
    Real.cos (0.5 * Real.pi * (f - fmax) / (fmax - (fmax + 4)))
  else if fmin ≤ f ∧ f ≤ fmax then 1
  else if fmin - 4 ≤ f ∧ f ≤ fmin then
    Real.sin (0.5 * Real.pi * (f - (fmin - 4)) / (fmin - (fmin - 4)))
  else 0

/-- The per-frequency wavenumber column gain of `hybrid_filter_design` at
frequency `f` and wavenumber `k` (`ks = f/cs_min`, `kp = f/cp_min`): zero
initialisation, ramp assignments on the two quadrants guarded by `ks ≠ kp`,
then the passband assignment `1` on `(-kp, kp)` (assignment order gives the
passband priority, then the `k⁻` quadrant, then the `k⁺` quadrant). -/
def hybridCol (cs_min cp_min f k : ℝ) : ℝ :=
  if k < f / cp_min ∧ -(f / cp_min) < k then 1
  else if f / cs_min ≠ f / cp_min ∧ (-(f / cs_min) ≤ -k ∧ -k ≤ -(f / cp_min)) then
    Real.sin (0.5 * Real.pi * (k - f / cs_min) / (f / cp_min - f / cs_min))
  else if f / cs_min ≠ f / cp_min ∧ (-(f / cs_min) ≤ k ∧ k ≤ -(f / cp_min)) then
    -Real.sin (0.5 * Real.pi * (k + f / cs_min) / (f / cp_min - f / cs_min))
  else 0

/-- The hybrid filter matrix before symmetrization: the tiled frequency
response `H`, with columns in the index range
`[argmax(freq >= fmin-4), argmax(freq >= fmax+4))` multiplied by the
wavenumber column gain.  Row `m` is the wavenumber index, column `i` the
frequency index. -/
def hybridPre (nx ns step : ℕ) (dx fs cs_min cp_min fmin fmax : ℝ)
    (m i : ℕ) : ℝ :=
  if argmaxGe ns (freqAx ns fs) (fmin - 4) ≤ i ∧
     i < argmaxGe ns (freqAx ns fs) (fmax + 4) then
    hybridH fmin fmax (freqAx ns fs i) *
      hybridCol cs_min cp_min (freqAx ns fs i) (knumAx nx step dx m)
  else hybridH fmin fmax (freqAx ns fs i)

/-- `hybrid_filter_design(...)[m, i]` : the returned (sparse-stored) mask
entry, after the symmetrization `fk_filter_matrix += np.fliplr(...)`. -/
def hybrid_filter_design (nx ns step : ℕ) (dx fs cs_min cp_min fmin fmax : ℝ)
    (m i : ℕ) : ℝ :=
  hybridPre nx ns step dx fs cs_min cp_min fmin fmax m i +
  hybridPre nx ns step dx fs cs_min cp_min fmin fmax m (ns - 1 - i)

/-- The frequency response vanishes strictly outside `[fmin-4, fmax+4]`. -/
theorem hybridH_eq_zero (fmin fmax f : ℝ) (hb : fmin ≤ fmax)
    (h : f < fmin - 4 ∨ fmax + 4 < f) : hybridH fmin fmax f = 0 := by
  unfold hybridH
  rcases h with h | h <;>
    rw [if_neg (by rintro ⟨h1, h2⟩; linarith),
      if_neg (by rintro ⟨h1, h2⟩; linarith),
      if_neg (by rintro ⟨h1, h2⟩; linarith)]

/-- A pre-symmetrization column vanishes when its frequency response does. -/
theorem hybridPre_eq_zero (nx ns step : ℕ) (dx fs cs_min cp_min fmin fmax : ℝ)
    (m i : ℕ) (h : hybridH fmin fmax (freqAx ns fs i) = 0) :
    hybridPre nx ns step dx fs cs_min cp_min fmin fmax m i = 0 := by
  unfold hybridPre
  split_ifs with hr
  · rw [h, zero_mul]
  · exact h

/-- C6 amended: a column of the symmetrized hybrid mask is entirely zero
whenever BOTH its own frequency and the mirrored column's frequency lie
strictly outside `[fmin-4, fmax+4]` (for a proper band `fmin ≤ fmax`).  The
original claim fails because the symmetrization `+= fliplr` fills in the
negative-frequency image: a column whose frequency is strictly outside the
band can mirror a passband column. -/
theorem hybrid_mask_column_zero_outside_band
    (nx ns step : ℕ) (dx fs cs_min cp_min fmin fmax : ℝ) (hb : fmin ≤ fmax)
    (i : ℕ) (hi : i < ns)
    (h1 : freqAx ns fs i < fmin - 4 ∨ fmax + 4 < freqAx ns fs i)
    (h2 : freqAx ns fs (ns - 1 - i) < fmin - 4 ∨
          fmax + 4 < freqAx ns fs (ns - 1 - i))
    (m : ℕ) :
    hybrid_filter_design nx ns step dx fs cs_min cp_min fmin fmax m i = 0 := by
  unfold hybrid_filter_design
  rw [hybridPre_eq_zero nx ns step dx fs cs_min cp_min fmin fmax m i
      (hybridH_eq_zero fmin fmax _ hb h1),
    hybridPre_eq_zero nx ns step dx fs cs_min cp_min fmin fmax m (ns - 1 - i)
      (hybridH_eq_zero fmin fmax _ hb h2),
    add_zero]

/-- The concrete frequency axis used by the C6 counterexample and witness:
`ns = 8`, `fs = 160`. -/
theorem freqAx_8_160 (j : ℕ) (hj : j < 8) : freqAx 8 160 j = 20 * j - 80 := by
  rw [freqAx_eq 8 160 j hj]
  norm_num
  ring

/-- First index with `freq >= fmin - 4 = 11` in the C6 instance. -/
theorem hybrid_cex_fmin_idx : argmaxGe 8 (freqAx 8 160) (15 - 4) = 5 := by
  refine argmaxGe_eq 8 _ _ 5 ⟨by norm_num, ?_⟩ ?_
  · rw [freqAx_8_160 5 (by norm_num)]
    norm_num
  · rintro m hm ⟨hm8, hcm⟩
    interval_cases m <;> rw [freqAx_8_160 _ (by norm_num)] at hcm <;> norm_num at hcm

/-- First index with `freq >= fmax + 4 = 29` in the C6 instance. -/
theorem hybrid_cex_fmax_idx : argmaxGe 8 (freqAx 8 160) (25 + 4) = 6 := by
  refine argmaxGe_eq 8 _ _ 6 ⟨by norm_num, ?_⟩ ?_
  · rw [freqAx_8_160 6 (by norm_num)]
    norm_num
  · rintro m hm ⟨hm8, hcm⟩
    interval_cases m <;> rw [freqAx_8_160 _ (by norm_num)] at hcm <;> norm_num at hcm

/-- C6 counterexample: for `(nx, ns) = (2, 8)`, `fs = 160`, `dx = step = 1`,
`cs_min = 1`, `cp_min = 2`, `fmin = 15`, `fmax = 25`, the frequency of
column 2 is `-40`, strictly outside `[fmin-4, fmax+4] = [11, 29]`, yet the
symmetrized mask entry `(0, 2)` equals `1`: the `+= fliplr` symmetrization
copies the passband column 5 (frequency `20`) into column 2. -/
theorem hybrid_mask_nonzero_column_outside_band :
    (freqAx 8 160 2 < 15 - 4 ∨ 25 + 4 < freqAx 8 160 2) ∧
    ¬ (hybrid_filter_design 2 8 1 1 160 1 2 15 25 0 2 = 0) := by
  have hf2 : freqAx 8 160 2 = -40 := by
    rw [freqAx_8_160 2 (by norm_num)]
    norm_num
  have hf5 : freqAx 8 160 5 = 20 := by
    rw [freqAx_8_160 5 (by norm_num)]
    norm_num
  constructor
  · left
    rw [hf2]
    norm_num
  · have hpre2 : hybridPre 2 8 1 1 160 1 2 15 25 0 2 = 0 := by
      unfold hybridPre
      rw [hybrid_cex_fmin_idx, hybrid_cex_fmax_idx, if_neg (by norm_num), hf2]
      unfold hybridH
      norm_num
    have hpre5 : hybridPre 2 8 1 1 160 1 2 15 25 0 5 = 1 := by
      unfold hybridPre
      rw [hybrid_cex_fmin_idx, hybrid_cex_fmax_idx, if_pos (by norm_num), hf5,
        knumAx_eq 2 1 1 0 (by norm_num)]
      unfold hybridH hybridCol
      norm_num
    unfold hybrid_filter_design
    show ¬ (hybridPre 2 8 1 1 160 1 2 15 25 0 2 +
            hybridPre 2 8 1 1 160 1 2 15 25 0 (8 - 1 - 2) = 0)
    have h5 : (8 - 1 - 2 : ℕ) = 5 := by norm_num
    rw [h5, hpre2, hpre5]
    norm_num

/-- Witness for the amended C6: column 0 (frequency `-80`) mirrors column 7
(frequency `60`), both strictly outside `[11, 29]`, and the column is zero. -/
theorem hybrid_mask_column_zero_outside_band_witness :
    (15:ℝ) ≤ 25 ∧
    (freqAx 8 160 0 < 15 - 4 ∨ 25 + 4 < freqAx 8 160 0) ∧
    (freqAx 8 160 (8 - 1 - 0) < 15 - 4 ∨ 25 + 4 < freqAx 8 160 (8 - 1 - 0)) ∧
    hybrid_filter_design 2 8 1 1 160 1 2 15 25 0 0 = 0 := by
  have hf0 : freqAx 8 160 0 = -80 := by
    rw [freqAx_8_160 0 (by norm_num)]
    norm_num
  have hf7 : freqAx 8 160 (8 - 1 - 0) = 60 := by
    show freqAx 8 160 7 = 60
    rw [freqAx_8_160 7 (by norm_num)]
    norm_num
  refine ⟨by norm_num, ?_, ?_, ?_⟩
  · left
    rw [hf0]
    norm_num
  · right
    rw [hf7]
    norm_num
  · exact hybrid_mask_column_zero_outside_band 2 8 1 1 160 1 2 15 25
      (by norm_num) 0 (by norm_num)
      (by left; rw [hf0]; norm_num)
      (by right; rw [hf7]; norm_num) 0

/-! ## Gaussian-smoothed hybrid filter (`hybrid_gs_filter_design`), claim C10

In `hybrid_gs_filter_design` the frequency response `H` has no transition
ramps (only the passband assignment `H[(freq >= fmin) & (freq <= fmax)] = 1`),
and inside the per-frequency loop the two boolean ramp index sets
`selected_k_mask` are computed (guarded by `ks != kp`) but never used in any
assignment: the only assignment to `filter_col` is the passband one.  The
embedding therefore omits the dead bindings. -/

/-- The ramp-free frequency response of `hybrid_gs_filter_design`. -/
def hybridGsH (fmin fmax f : ℝ) : ℝ :=
  if fmin ≤ f ∧ f ≤ fmax then 1 else 0

/-- The wavenumber column gain of `hybrid_gs_filter_design`: only the
passband assignment survives (the ramp index sets are dead code). -/
def hybridGsCol (cp_min f k : ℝ) : ℝ :=
  if k < f / cp_min ∧ -(f / cp_min) < k then 1 else 0

/-- The `hybrid_gs_filter_design` matrix before symmetrization. -/
def hybridGsPre (nx ns step : ℕ) (dx fs cp_min fmin fmax : ℝ) (m i : ℕ) : ℝ :=
  if argmaxGe ns (freqAx ns fs) (fmin - 4) ≤ i ∧
     i < argmaxGe ns (freqAx ns fs) (fmax + 4) then
    hybridGsH fmin fmax (freqAx ns fs i) *
      hybridGsCol cp_min (freqAx ns fs i) (knumAx nx step dx m)
  else hybridGsH fmin fmax (freqAx ns fs i)

/-- The matrix handed to `ndimage.gaussian_filter` in
`hybrid_gs_filter_design`: the pre-symmetrization matrix plus its horizontal
mirror (`fk_filter_matrix += np.fliplr(...)` happens before smoothing). -/
def hybridGsPreGauss (nx ns step : ℕ) (dx fs cp_min fmin fmax : ℝ)
    (m i : ℕ) : ℝ :=
  hybridGsPre nx ns step dx fs cp_min fmin fmax m i +
  hybridGsPre nx ns step dx fs cp_min fmin fmax m (ns - 1 - i)

/-- C10 amended: in `hybrid_gs_filter_design` the ramp index sets are dead
code, so before symmetrization every matrix entry is exactly `0` or exactly
`1`; the matrix actually passed to the Gaussian smoothing is the symmetrized
sum of two such entries, so its entries are exactly `0`, `1` or `2` — still
no fractional half-sine transition values, but not restricted to `{0, 1}`. -/
theorem hybrid_gs_pre_smoothing_values
    (nx ns step : ℕ) (dx fs cs_min cp_min fmin fmax : ℝ)
    (hcc : cs_min ≠ cp_min) (m i : ℕ) :
    (hybridGsPre nx ns step dx fs cp_min fmin fmax m i = 0 ∨
     hybridGsPre nx ns step dx fs cp_min fmin fmax m i = 1) ∧
    (hybridGsPreGauss nx ns step dx fs cp_min fmin fmax m i = 0 ∨
     hybridGsPreGauss nx ns step dx fs cp_min fmin fmax m i = 1 ∨
     hybridGsPreGauss nx ns step dx fs cp_min fmin fmax m i = 2) := by
  have hpre : ∀ i' : ℕ,
      hybridGsPre nx ns step dx fs cp_min fmin fmax m i' = 0 ∨
      hybridGsPre nx ns step dx fs cp_min fmin fmax m i' = 1 := by
    intro i'
    unfold hybridGsPre hybridGsH hybridGsCol
    split_ifs <;> norm_num
  refine ⟨hpre i, ?_⟩
  unfold hybridGsPreGauss
  rcases hpre i with h1 | h1 <;> rcases hpre (ns - 1 - i) with h2 | h2 <;>
    rw [h1, h2] <;> norm_num

/-- C10 counterexample: for `(nx, ns) = (1, 5)`, `fs = 10`, `dx = step = 1`,
`cs_min = 1 ≠ cp_min = 2`, `fmin = 0`, `fmax = 5`, the center column
(frequency `0`) is its own mirror, so the symmetrized matrix handed to the
Gaussian smoothing holds the value `2` there — not `0` or `1`. -/
theorem hybrid_gs_pre_smoothing_value_two :
    (1:ℝ) ≠ (2:ℝ) ∧
    ¬ (hybridGsPreGauss 1 5 1 1 10 2 0 5 0 2 = 0 ∨
       hybridGsPreGauss 1 5 1 1 10 2 0 5 0 2 = 1) := by
  have hf2 : freqAx 5 10 2 = 0 := by
    rw [freqAx_eq 5 10 2 (by norm_num)]
    norm_num
  have hmax : argmaxGe 5 (freqAx 5 10) ((5:ℝ) + 4) = 0 := by
    refine argmaxGe_eq_zero 5 _ _ ?_
    rintro ⟨j, hj5, hcj⟩
    have hfj : freqAx 5 10 j = 2 * j - 4 := by
      rw [freqAx_eq 5 10 j hj5]
      norm_num
      ring
    rw [hfj] at hcj
    have : (j : ℝ) < 5 := by exact_mod_cast hj5
    linarith
  have hpre : hybridGsPre 1 5 1 1 10 2 0 5 0 2 = 1 := by
    unfold hybridGsPre
    rw [hmax, if_neg (by omega), hf2]
    unfold hybridGsH
    norm_num
  have hval : hybridGsPreGauss 1 5 1 1 10 2 0 5 0 2 = 2 := by
    unfold hybridGsPreGauss
    show hybridGsPre 1 5 1 1 10 2 0 5 0 2 +
         hybridGsPre 1 5 1 1 10 2 0 5 0 (5 - 1 - 2) = 2
    have h2 : (5 - 1 - 2 : ℕ) = 2 := by norm_num
    rw [h2, hpre]
    norm_num
  refine ⟨by norm_num, ?_⟩
  rw [hval]
  norm_num

/-- Witness for the amended C10 at the same concrete configuration. -/
theorem hybrid_gs_pre_smoothing_values_witness :
    (1:ℝ) ≠ (2:ℝ) ∧
    ((hybridGsPre 1 5 1 1 10 2 0 5 0 0 = 0 ∨
      hybridGsPre 1 5 1 1 10 2 0 5 0 0 = 1) ∧
     (hybridGsPreGauss 1 5 1 1 10 2 0 5 0 0 = 0 ∨
      hybridGsPreGauss 1 5 1 1 10 2 0 5 0 0 = 1 ∨
      hybridGsPreGauss 1 5 1 1 10 2 0 5 0 0 = 2)) :=
  ⟨by norm_num,
   hybrid_gs_pre_smoothing_values 1 5 1 1 10 1 2 0 5 (by norm_num) 0 0⟩

/-! ## The 2-D spectral application path (`fk_filter_filt`,
`fk_filter_sparsefilt`)

`np.fft.fft2` / `np.fft.ifft2` are the separable 2-D discrete Fourier
transform and its normalized inverse; they are modelled by their defining
finite sums over `ℂ`.  The claims C2-C4 all fix `tapering=False`, so the
Tukey-window branch of the source is not exercised and is omitted from the
embedding. -/

/-- 1-D DFT: `np.fft.fft`, `X[p] = Σ_j x[j]·exp(-2πi·p·j/n)`. -/
def npFft (n : ℕ) (x : Fin n → ℂ) (p : Fin n) : ℂ :=
  ∑ j : Fin n,
    x j * Complex.exp (-(2 * (Real.pi : ℂ) * Complex.I) *
      ((p : ℕ) : ℂ) * ((j : ℕ) : ℂ) / (n : ℂ))

/-- 1-D inverse DFT: `np.fft.ifft`,
`x[m] = (1/n)·Σ_p X[p]·exp(2πi·p·m/n)`. -/
def npIfft (n : ℕ) (x : Fin n → ℂ) (m : Fin n) : ℂ :=
  (∑ p : Fin n,
    x p * Complex.exp ((2 * (Real.pi : ℂ) * Complex.I) *
      ((p : ℕ) : ℂ) * ((m : ℕ) : ℂ) / (n : ℂ))) / (n : ℂ)

/-- Root-of-unity orthogonality: for `-n < d < n`,
`Σ_{p<n} exp(2πi·p·d/n)` is `n` when `d = 0` and `0` otherwise. -/
theorem sum_root_of_unity (n : ℕ) (d : ℤ) (hd1 : -(n:ℤ) < d) (hd2 : d < n) :
    ∑ p : Fin n,
      Complex.exp ((2 * (Real.pi : ℂ) * Complex.I) * ((p : ℕ) : ℂ) *
        (d : ℂ) / (n : ℂ)) =
    if d = 0 then (n : ℂ) else 0 := by
  have hn : 0 < n := by omega
  have hnne : (n : ℂ) ≠ 0 := Nat.cast_ne_zero.mpr hn.ne'
  have h2pi : (2 * (Real.pi : ℂ) * Complex.I) ≠ 0 := by
    simp [Complex.I_ne_zero, Real.pi_ne_zero]
  have hzp : ∀ p : ℕ,
      Complex.exp ((2 * (Real.pi : ℂ) * Complex.I) * (p : ℂ) * (d : ℂ) / (n : ℂ)) =
      Complex.exp ((2 * (Real.pi : ℂ) * Complex.I) * (d : ℂ) / (n : ℂ)) ^ p := by
    intro p
    rw [← Complex.exp_nat_mul]
    congr 1
    ring
  have hsum : ∑ p : Fin n,
      Complex.exp ((2 * (Real.pi : ℂ) * Complex.I) * ((p : ℕ) : ℂ) *
        (d : ℂ) / (n : ℂ)) =
      ∑ p ∈ Finset.range n,
        Complex.exp ((2 * (Real.pi : ℂ) * Complex.I) * (d : ℂ) / (n : ℂ)) ^ p := by
    rw [← Fin.sum_univ_eq_sum_range]
    exact Finset.sum_congr rfl fun p _ => hzp p.1
  rw [hsum]
  by_cases hd : d = 0
  · rw [if_pos hd, hd]
    simp
  · rw [if_neg hd]
    have hz1 : Complex.exp ((2 * (Real.pi : ℂ) * Complex.I) * (d : ℂ) / (n : ℂ)) ≠ 1 := by
      intro hc
      rw [Complex.exp_eq_one_iff] at hc
      obtain ⟨k, hk⟩ := hc
      have hk2 : (2 * (Real.pi : ℂ) * Complex.I) * ((d : ℂ) / (n : ℂ)) =
          (2 * (Real.pi : ℂ) * Complex.I) * (k : ℂ) := by
        rw [← mul_div_assoc, hk]
        ring
      have hdk : (d : ℂ) / (n : ℂ) = (k : ℂ) := mul_left_cancel₀ h2pi hk2
      have hdc : (d : ℂ) = (k : ℂ) * (n : ℂ) := by
        rw [div_eq_iff hnne] at hdk
        exact hdk
      have hdz : d = k * n := by exact_mod_cast hdc
      have hnz : (1:ℤ) ≤ (n:ℤ) := by exact_mod_cast hn
      rcases lt_trichotomy k 0 with hkn | hkz | hkp
      · have hk1 : k ≤ -1 := by omega
        have hmul : k * (n:ℤ) ≤ -1 * (n:ℤ) :=
          mul_le_mul_of_nonneg_right hk1 (by linarith)
        linarith
      · rw [hkz, zero_mul] at hdz
        exact hd hdz
      · have hk1 : 1 ≤ k := by omega
        have hmul : 1 * (n:ℤ) ≤ k * (n:ℤ) :=
          mul_le_mul_of_nonneg_right hk1 (by linarith)
        linarith
    rw [geom_sum_eq hz1 n]
    have hzn : Complex.exp ((2 * (Real.pi : ℂ) * Complex.I) * (d : ℂ) / (n : ℂ)) ^ n = 1 := by
      rw [← Complex.exp_nat_mul]
      have harg : (n : ℂ) * ((2 * (Real.pi : ℂ) * Complex.I) * (d : ℂ) / (n : ℂ)) =
          (d : ℂ) * (2 * (Real.pi : ℂ) * Complex.I) := by
        field_simp
        ring
      rw [harg]
      exact Complex.exp_int_mul_two_pi_mul_I d
    rw [hzn]
    simp

/-- Fourier inversion for the 1-D DFT pair. -/
theorem npIfft_npFft (n : ℕ) (x : Fin n → ℂ) (m : Fin n) :
    npIfft n (npFft n x) m = x m := by
  have hn : 0 < n := m.pos
  have hnne : (n : ℂ) ≠ 0 := Nat.cast_ne_zero.mpr hn.ne'
  unfold npIfft npFft
  have hkey : ∀ p j : Fin n,
      Complex.exp (-(2 * (Real.pi : ℂ) * Complex.I) * ((p : ℕ) : ℂ) *
          ((j : ℕ) : ℂ) / (n : ℂ)) *
        Complex.exp ((2 * (Real.pi : ℂ) * Complex.I) * ((p : ℕ) : ℂ) *
          ((m : ℕ) : ℂ) / (n : ℂ)) =
      Complex.exp ((2 * (Real.pi : ℂ) * Complex.I) * ((p : ℕ) : ℂ) *
        (((m : ℕ) : ℤ) - ((j : ℕ) : ℤ) : ℤ) / (n : ℂ)) := by
    intro p j
    rw [← Complex.exp_add]
    congr 1
    push_cast
    ring
  have hsum : (∑ p : Fin n,
      (∑ j : Fin n, x j * Complex.exp (-(2 * (Real.pi : ℂ) * Complex.I) *
          ((p : ℕ) : ℂ) * ((j : ℕ) : ℂ) / (n : ℂ))) *
        Complex.exp ((2 * (Real.pi : ℂ) * Complex.I) * ((p : ℕ) : ℂ) *
          ((m : ℕ) : ℂ) / (n : ℂ))) = x m * (n : ℂ) := by
    calc (∑ p : Fin n,
        (∑ j : Fin n, x j * Complex.exp (-(2 * (Real.pi : ℂ) * Complex.I) *
            ((p : ℕ) : ℂ) * ((j : ℕ) : ℂ) / (n : ℂ))) *
          Complex.exp ((2 * (Real.pi : ℂ) * Complex.I) * ((p : ℕ) : ℂ) *
            ((m : ℕ) : ℂ) / (n : ℂ)))
        = ∑ p : Fin n, ∑ j : Fin n,
            x j * Complex.exp (-(2 * (Real.pi : ℂ) * Complex.I) *
              ((p : ℕ) : ℂ) * ((j : ℕ) : ℂ) / (n : ℂ)) *
            Complex.exp ((2 * (Real.pi : ℂ) * Complex.I) * ((p : ℕ) : ℂ) *
              ((m : ℕ) : ℂ) / (n : ℂ)) :=
          Finset.sum_congr rfl fun p _ => Finset.sum_mul _ _ _
      _ = ∑ j : Fin n, ∑ p : Fin n,
            x j * Complex.exp (-(2 * (Real.pi : ℂ) * Complex.I) *
              ((p : ℕ) : ℂ) * ((j : ℕ) : ℂ) / (n : ℂ)) *
            Complex.exp ((2 * (Real.pi : ℂ) * Complex.I) * ((p : ℕ) : ℂ) *
              ((m : ℕ) : ℂ) / (n : ℂ)) := Finset.sum_comm
      _ = ∑ j : Fin n,
            x j * (if (((m : ℕ) : ℤ) - ((j : ℕ) : ℤ) : ℤ) = 0
                   then (n : ℂ) else 0) := by
          refine Finset.sum_congr rfl fun j _ => ?_
          rw [← sum_root_of_unity n (((m : ℕ) : ℤ) - ((j : ℕ) : ℤ))
            (by have := m.isLt; have := j.isLt; omega)
            (by have := m.isLt; have := j.isLt; omega)]
          rw [Finset.mul_sum]
          refine Finset.sum_congr rfl fun p _ => ?_
          rw [mul_assoc, hkey p j]
      _ = x m * (n : ℂ) := by
          rw [Finset.sum_eq_single m]
          · rw [if_pos (by omega)]
          · intro j _ hj
            rw [if_neg (by
              have : (j : ℕ) ≠ (m : ℕ) := fun hc => hj (Fin.ext hc)
              omega)]
            rw [mul_zero]
          · intro hm
            exact absurd (Finset.mem_univ m) hm
  rw [hsum]
  field_simp

/-- 2-D DFT `np.fft.fft2`: the separable transform, 1-D DFT along the time
axis then along the channel axis. -/
def npFft2 (a b : ℕ) (X : Fin a → Fin b → ℂ) : Fin a → Fin b → ℂ :=
  fun p q => npFft a (fun i => npFft b (X i) q) p

/-- 2-D inverse DFT `np.fft.ifft2`. -/
def npIfft2 (a b : ℕ) (X : Fin a → Fin b → ℂ) : Fin a → Fin b → ℂ :=
  fun i j => npIfft b (fun q => npIfft a (fun p => X p q) i) j

/-- Fourier inversion for the 2-D pair. -/
theorem npIfft2_npFft2 (a b : ℕ) (X : Fin a → Fin b → ℂ)
    (i : Fin a) (j : Fin b) : npIfft2 a b (npFft2 a b X) i j = X i j := by
  unfold npIfft2 npFft2
  have h1 : (fun q => npIfft a
      (fun p => npFft a (fun u => npFft b (X u) q) p) i) =
      fun q => npFft b (X i) q := by
    funext q
    exact npIfft_npFft a (fun u => npFft b (X u) q) i
  rw [h1]
  exact npIfft_npFft b (X i) j

/-- `np.fft.fftshift` index map on `Fin n` (roll by `n/2`). -/
def shiftFwd (n : ℕ) (i : Fin n) : Fin n :=
  ⟨(i.1 + (n - n / 2)) % n, Nat.mod_lt _ i.pos⟩

/-- `np.fft.ifftshift` index map on `Fin n` (roll by `-(n/2)`). -/
def shiftInv (n : ℕ) (i : Fin n) : Fin n :=
  ⟨(i.1 + n / 2) % n, Nat.mod_lt _ i.pos⟩

/-- 2-D `np.fft.fftshift` (both axes). -/
def fftshift2 (a b : ℕ) (X : Fin a → Fin b → ℂ) : Fin a → Fin b → ℂ :=
  fun i j => X (shiftFwd a i) (shiftFwd b j)

/-- 2-D `np.fft.ifftshift` (both axes). -/
def ifftshift2 (a b : ℕ) (X : Fin a → Fin b → ℂ) : Fin a → Fin b → ℂ :=
  fun i j => X (shiftInv a i) (shiftInv b j)

/-- The two index rolls cancel. -/
theorem shiftFwd_shiftInv (n : ℕ) (i : Fin n) :
    shiftFwd n (shiftInv n i) = i := by
  unfold shiftFwd shiftInv
  apply Fin.ext
  show ((i.1 + n / 2) % n + (n - n / 2)) % n = i.1
  rw [Nat.mod_add_mod]
  have h1 : i.1 + n / 2 + (n - n / 2) = i.1 + n := by
    have := Nat.div_le_self n 2
    omega
  rw [h1, Nat.add_mod_right, Nat.mod_eq_of_lt i.isLt]

/-- `ifftshift` undoes `fftshift` (2-D). -/
theorem ifftshift2_fftshift2 (a b : ℕ) (X : Fin a → Fin b → ℂ) :
    ifftshift2 a b (fftshift2 a b X) = X := by
  funext i j
  unfold ifftshift2 fftshift2
  rw [shiftFwd_shiftInv, shiftFwd_shiftInv]

/-- `fk_filter_filt(trace, fk_filter_matrix, tapering=False)` : 2-D transform
with center shift, elementwise product with the (dense, real) mask, inverse
shift and transform, real part. -/
def fk_filter_filt (a b : ℕ) (trace : Fin a → Fin b → ℝ)
    (M : Fin a → Fin b → ℝ) : Fin a → Fin b → ℝ :=
  fun i j =>
    (npIfft2 a b (ifftshift2 a b
      (fun p q =>
        fftshift2 a b (npFft2 a b (fun u v => ((trace u v : ℝ) : ℂ))) p q *
        ((M p q : ℝ) : ℂ))) i j).re

/-- The sparse coordinate mask: `sparse.COO.from_numpy` keeps the set of
nonzero coordinates together with the stored values. -/
structure SparseCOO (a b : ℕ) where
  support : Set (Fin a × Fin b)
  val : Fin a → Fin b → ℝ

/-- `sparse.COO.from_numpy M`: the support is exactly the nonzero entries. -/
def SparseCOO.fromMatrix (a b : ℕ) (M : Fin a → Fin b → ℝ) : SparseCOO a b :=
  ⟨{p | M p.1 p.2 ≠ 0}, M⟩

/-- Elementwise product of a dense complex spectrum with the sparse mask,
followed by `.todense()`: entries exist only at stored coordinates, zero is
filled elsewhere. -/
def SparseCOO.mulDense (a b : ℕ) (c : SparseCOO a b)
    (A : Fin a → Fin b → ℂ) : Fin a → Fin b → ℂ :=
  fun i j =>
    @ite _ ((i, j) ∈ c.support) (Classical.propDecidable _)
      (A i j * ((c.val i j : ℝ) : ℂ)) 0

/-- Densified sparse product of `COO.from_numpy M` agrees with the dense
elementwise product (off-support entries of `M` are zero). -/
theorem mulDense_fromMatrix (a b : ℕ) (M : Fin a → Fin b → ℝ)
    (A : Fin a → Fin b → ℂ) :
    SparseCOO.mulDense a b (SparseCOO.fromMatrix a b M) A =
    fun i j => A i j * ((M i j : ℝ) : ℂ) := by
  funext i j
  unfold SparseCOO.mulDense SparseCOO.fromMatrix
  split_ifs with h
  · rfl
  · simp only [Set.mem_setOf_eq, not_not] at h
    rw [h]
    simp

/-- `fk_filter_sparsefilt(trace, coo_mask, tapering=False)` : same pipeline
as `fk_filter_filt` but the product is taken against the sparse mask and
densified (`.todense()`) before the inverse transform. -/
def fk_filter_sparsefilt (a b : ℕ) (trace : Fin a → Fin b → ℝ)
    (c : SparseCOO a b) : Fin a → Fin b → ℝ :=
  fun i j =>
    (npIfft2 a b (ifftshift2 a b
      (SparseCOO.mulDense a b c
        (fftshift2 a b (npFft2 a b (fun u v => ((trace u v : ℝ) : ℂ)))))) i j).re

/-- C2: for every real trace and mask of the same shape, the dense path
(`fk_filter_filt`) and the sparse path (`fk_filter_sparsefilt` on
`COO.from_numpy` of the mask) produce identical outputs (exactly, in the
real-arithmetic model; hence within floating-point tolerance in the code). -/
theorem fk_filter_sparse_dense_agree (a b : ℕ) (trace : Fin a → Fin b → ℝ)
    (M : Fin a → Fin b → ℝ) :
    fk_filter_sparsefilt a b trace (SparseCOO.fromMatrix a b M) =
    fk_filter_filt a b trace M := by
  unfold fk_filter_sparsefilt fk_filter_filt
  rw [mulDense_fromMatrix]

/-- C3: applying the all-ones mask through `fk_filter_filt` (tapering off)
returns the input trace exactly in the real-arithmetic model: the shifted
forward transform composed with the identity product, the inverse
shift/transform and the real part is the identity. -/
theorem fk_filter_filt_ones_id (a b : ℕ) (trace : Fin a → Fin b → ℝ) :
    fk_filter_filt a b trace (fun _ _ => 1) = trace := by
  funext i j
  unfold fk_filter_filt
  have h1 : (fun p q =>
      fftshift2 a b (npFft2 a b (fun u v => ((trace u v : ℝ) : ℂ))) p q *
        (((1:ℝ)) : ℂ)) =
      fftshift2 a b (npFft2 a b (fun u v => ((trace u v : ℝ) : ℂ))) := by
    funext p q
    rw [Complex.ofReal_one, mul_one]
  rw [h1, ifftshift2_fftshift2, npIfft2_npFft2]
  exact Complex.ofReal_re _

/-- C4: applying the all-zeros mask through `fk_filter_filt` (tapering off)
yields the exactly-zero trace. -/
theorem fk_filter_filt_zeros_zero (a b : ℕ) (trace : Fin a → Fin b → ℝ) :
    fk_filter_filt a b trace (fun _ _ => 0) = fun _ _ => 0 := by
  funext i j
  unfold fk_filter_filt
  have h1 : (fun p q =>
      fftshift2 a b (npFft2 a b (fun u v => ((trace u v : ℝ) : ℂ))) p q *
        (((0:ℝ)) : ℂ)) = fun _ _ => (0 : ℂ) := by
    funext p q
    rw [Complex.ofReal_zero, mul_zero]
  rw [h1]
  have h2 : ifftshift2 a b (fun _ _ => (0 : ℂ)) = fun _ _ => (0 : ℂ) := rfl
  rw [h2]
  simp [npIfft2, npIfft]

/-! ## Shape behaviour of the application path (claim C7)

`fk_filter_filt` contains no explicit shape check: the elementwise product
`fk_trace * fk_filter_matrix` follows numpy broadcasting.  Shapes are
modelled explicitly by `NpArr`; the product returns `none` (the numpy
`ValueError`) exactly when the two 2-D shapes are not broadcast-compatible,
and otherwise broadcasts (a length-1 axis is indexed at `0`). -/

/-- A 2-D numpy array with an explicit shape. -/
structure NpArr where
  rows : ℕ
  cols : ℕ
  data : ℕ → ℕ → ℂ

/-- numpy broadcast compatibility of two axis lengths. -/
def npCompat (a b : ℕ) : Prop := a = b ∨ a = 1 ∨ b = 1

instance npCompatDec (a b : ℕ) : Decidable (npCompat a b) :=
  inferInstanceAs (Decidable (a = b ∨ a = 1 ∨ b = 1))

/-- Elementwise product of two 2-D arrays under numpy broadcasting: fails
(`ValueError`) when a pair of axis lengths is incompatible, otherwise the
output shape is the elementwise `max` and a length-1 axis is broadcast. -/
def npBroadcastMul (A B : NpArr) : Option NpArr :=
  if npCompat A.rows B.rows ∧ npCompat A.cols B.cols then
    some ⟨max A.rows B.rows, max A.cols B.cols,
      fun i j =>
        A.data (if A.rows = 1 then 0 else i) (if A.cols = 1 then 0 else j) *
        B.data (if B.rows = 1 then 0 else i) (if B.cols = 1 then 0 else j)⟩
  else none

/-- `np.fft.fft2` on a shape-carrying array (shape-preserving). -/
def npFft2Arr (A : NpArr) : NpArr :=
  ⟨A.rows, A.cols, fun p q =>
    ∑ u ∈ Finset.range A.rows, ∑ v ∈ Finset.range A.cols,
      A.data u v * Complex.exp (-(2 * (Real.pi : ℂ) * Complex.I) *
        ((p : ℂ) * (u : ℂ) / (A.rows : ℂ) + (q : ℂ) * (v : ℂ) / (A.cols : ℂ)))⟩

/-- `np.fft.ifft2` on a shape-carrying array (shape-preserving). -/
def npIfft2Arr (A : NpArr) : NpArr :=
  ⟨A.rows, A.cols, fun i j =>
    (∑ p ∈ Finset.range A.rows, ∑ q ∈ Finset.range A.cols,
      A.data p q * Complex.exp ((2 * (Real.pi : ℂ) * Complex.I) *
        ((p : ℂ) * (i : ℂ) / (A.rows : ℂ) + (q : ℂ) * (j : ℂ) / (A.cols : ℂ)))) /
      ((A.rows : ℂ) * (A.cols : ℂ))⟩

/-- `np.fft.fftshift` on both axes of a shape-carrying array. -/
def fftshift2Arr (A : NpArr) : NpArr :=
  ⟨A.rows, A.cols, fun i j =>
    A.data ((i + (A.rows - A.rows / 2)) % A.rows)
           ((j + (A.cols - A.cols / 2)) % A.cols)⟩

/-- `np.fft.ifftshift` on both axes of a shape-carrying array. -/
def ifftshift2Arr (A : NpArr) : NpArr :=
  ⟨A.rows, A.cols, fun i j =>
    A.data ((i + A.rows / 2) % A.rows) ((j + A.cols / 2) % A.cols)⟩

/-- `.real` of a shape-carrying array. -/
def reArr (A : NpArr) : NpArr :=
  ⟨A.rows, A.cols, fun i j => (((A.data i j).re : ℝ) : ℂ)⟩

/-- `fk_filter_filt` at the shape level: shifted forward transform,
broadcasting elementwise product with the mask (numpy raises on
incompatible shapes, modelled by `none`), inverse shift/transform, real
part. -/
def fk_filter_filt_np (trace M : NpArr) : Option NpArr :=
  (npBroadcastMul (fftshift2Arr (npFft2Arr trace)) M).map
    (fun fk => reArr (npIfft2Arr (ifftshift2Arr fk)))

/-- C7 amended: if the mask shape equals the trace shape the output exists
and has exactly the trace's shape; if the mask shape is not numpy
broadcast-compatible with the trace shape the operation fails immediately
with a shape error; but a mask whose shape differs from, yet is
broadcast-compatible with, the trace's shape is silently broadcast instead
of rejected. -/
theorem fk_filter_filt_shape_behavior (trace M : NpArr) :
    (M.rows = trace.rows ∧ M.cols = trace.cols →
      ∃ out, fk_filter_filt_np trace M = some out ∧
        out.rows = trace.rows ∧ out.cols = trace.cols) ∧
    (¬ (npCompat trace.rows M.rows ∧ npCompat trace.cols M.cols) →
      fk_filter_filt_np trace M = none) := by
  constructor
  · rintro ⟨hr, hc⟩
    unfold fk_filter_filt_np npBroadcastMul
    rw [if_pos ⟨Or.inl hr.symm, Or.inl hc.symm⟩]
    refine ⟨_, rfl, ?_, ?_⟩
    · show max trace.rows M.rows = trace.rows
      rw [hr, max_self]
    · show max trace.cols M.cols = trace.cols
      rw [hc, max_self]
  · intro h
    unfold fk_filter_filt_np npBroadcastMul
    simp only [fftshift2Arr, npFft2Arr]
    rw [if_neg h]
    rfl

/-- Witness for the amended C7: a `2 x 2` mask applied to a `2 x 2` trace
succeeds with a `2 x 2` output. -/
theorem fk_filter_filt_shape_behavior_witness :
    (NpArr.mk 2 2 fun _ _ => 1).rows = (NpArr.mk 2 2 fun _ _ => 0).rows ∧
    (NpArr.mk 2 2 fun _ _ => 1).cols = (NpArr.mk 2 2 fun _ _ => 0).cols ∧
    ∃ out, fk_filter_filt_np (NpArr.mk 2 2 fun _ _ => 0)
        (NpArr.mk 2 2 fun _ _ => 1) = some out ∧
      out.rows = (NpArr.mk 2 2 fun _ _ => 0).rows ∧
      out.cols = (NpArr.mk 2 2 fun _ _ => 0).cols :=
  ⟨rfl, rfl,
   (fk_filter_filt_shape_behavior (NpArr.mk 2 2 fun _ _ => 0)
     (NpArr.mk 2 2 fun _ _ => 1)).1 ⟨rfl, rfl⟩⟩

/-- C7 counterexample: a `1 x 2` mask against a `2 x 2` trace is a shape
mismatch, yet the operation succeeds (numpy silently broadcasts the
compatible shapes) instead of failing with a shape error. -/
theorem fk_filter_filt_no_error_on_broadcastable_mismatch :
    ¬ ((NpArr.mk 1 2 fun _ _ => 1).rows = (NpArr.mk 2 2 fun _ _ => 0).rows ∧
       (NpArr.mk 1 2 fun _ _ => 1).cols = (NpArr.mk 2 2 fun _ _ => 0).cols) ∧
    (fk_filter_filt_np (NpArr.mk 2 2 fun _ _ => 0)
      (NpArr.mk 1 2 fun _ _ => 1)).isSome = true := by
  constructor
  · rintro ⟨hr, hc⟩
    exact absurd hr (by norm_num)
  · unfold fk_filter_filt_np npBroadcastMul
    rw [if_pos ⟨Or.inr (Or.inr rfl), Or.inl rfl⟩]
    rfl

/-! ## SNR estimation (`snr_tr_array`, claim C9)

`snr_tr_array(trace, env=False)` computes
`10 * np.log10(trace**2 / np.std(trace, axis=1, keepdims=True)**2)`.
Exact real arithmetic models the finite values; the IEEE special values that
numpy produces on division by zero and on `log10` of a non-positive number
are modelled by the explicit value type `NpVal`. -/

/-- A numpy float64 result: finite value, `inf`, `-inf` or `nan`. -/
inductive NpVal where
  | fin : ℝ → NpVal
  | pinf : NpVal
  | ninf : NpVal
  | nan : NpVal

/-- numpy float division `a / b`: finite quotient when `b /= 0`; on a zero
denominator, `0/0 = nan` and `a/0 = +-inf` by the sign of `a`. -/
def npDiv (a b : ℝ) : NpVal :=
  @ite _ (b = 0) (Classical.propDecidable _)
    (@ite _ (a = 0) (Classical.propDecidable _) NpVal.nan
      (@ite _ (0 < a) (Classical.propDecidable _) NpVal.pinf NpVal.ninf))
    (NpVal.fin (a / b))

/-- numpy `log10`: finite on positive finite input, `log10(0) = -inf`,
`log10(x) = nan` for `x < 0`, `log10(inf) = inf`, `log10(-inf) = nan`,
`log10(nan) = nan`. -/
def npLog10 : NpVal → NpVal
  | NpVal.fin x =>
      @ite _ (0 < x) (Classical.propDecidable _) (NpVal.fin (Real.logb 10 x))
        (@ite _ (x = 0) (Classical.propDecidable _) NpVal.ninf NpVal.nan)
  | NpVal.pinf => NpVal.pinf
  | NpVal.ninf => NpVal.nan
  | NpVal.nan => NpVal.nan

/-- Multiplication by the positive scalar `10` (the dB scaling): preserves
the infinities and `nan`. -/
def npMulTen : NpVal → NpVal
  | NpVal.fin x => NpVal.fin (10 * x)
  | NpVal.pinf => NpVal.pinf
  | NpVal.ninf => NpVal.ninf
  | NpVal.nan => NpVal.nan

/-- `np.mean` of the first `n` entries of a channel. -/
def npMean (n : ℕ) (x : ℕ → ℝ) : ℝ := (∑ j ∈ Finset.range n, x j) / n

/-- `np.std` (ddof = 0) of the first `n` entries of a channel. -/
def npStd (n : ℕ) (x : ℕ → ℝ) : ℝ :=
  Real.sqrt ((∑ j ∈ Finset.range n, (x j - npMean n x) ^ 2) / n)

/-- `snr_tr_array(trace, env=False)[i, j]` for a trace with `ns` time
samples per channel: `10*log10(trace[i,j]**2 / std(trace[i])**2)`. -/
def snr_tr_array (ns : ℕ) (trace : ℕ → ℕ → ℝ) (i j : ℕ) : NpVal :=
  npMulTen (npLog10 (npDiv (trace i j ^ 2) (npStd ns (trace i) ^ 2)))

/-- The finiteness predicate on a numpy value. -/
def NpVal.isFin : NpVal → Prop
  | NpVal.fin _ => True
  | _ => False

/-- C9 amended: with `env=False`, `snr_tr_array(trace)[i,j]` is finite
whenever the channel's standard deviation is nonzero AND the sample itself
is nonzero (a zero sample on a nonzero-variance channel gives
`10*log10(0) = -inf`, refuting the original claim); on a constant
(zero-variance) channel every entry is the defined sentinel `+inf` (nonzero
sample) or `nan` (zero sample) — never a crash. -/
theorem snr_tr_array_finite_and_sentinel (ns : ℕ) (trace : ℕ → ℕ → ℝ)
    (i j : ℕ) :
    (npStd ns (trace i) ≠ 0 → trace i j ≠ 0 →
      NpVal.isFin (snr_tr_array ns trace i j)) ∧
    (npStd ns (trace i) = 0 →
      snr_tr_array ns trace i j = NpVal.pinf ∨
      snr_tr_array ns trace i j = NpVal.nan) := by
  constructor
  · intro hstd hx
    unfold snr_tr_array npDiv
    have hb : npStd ns (trace i) ^ 2 ≠ 0 := pow_ne_zero 2 hstd
    rw [if_neg hb]
    have h1 : 0 < trace i j ^ 2 :=
      lt_of_le_of_ne (sq_nonneg _) (Ne.symm (pow_ne_zero 2 hx))
    have h2 : 0 < npStd ns (trace i) ^ 2 :=
      lt_of_le_of_ne (sq_nonneg _) (Ne.symm hb)
    have hpos : 0 < trace i j ^ 2 / npStd ns (trace i) ^ 2 := div_pos h1 h2
    show NpVal.isFin (npMulTen (npLog10 (NpVal.fin _)))
    simp only [npLog10]
    rw [if_pos hpos]
    exact trivial
  · intro hstd
    unfold snr_tr_array npDiv
    have hb : npStd ns (trace i) ^ 2 = 0 := by
      rw [hstd]
      ring
    rw [if_pos hb]
    rcases eq_or_ne (trace i j) 0 with hx | hx
    · have ha : trace i j ^ 2 = 0 := by
        rw [hx]
        ring
      rw [if_pos ha]
      right
      rfl
    · have ha : 0 < trace i j ^ 2 :=
        lt_of_le_of_ne (sq_nonneg _) (Ne.symm (pow_ne_zero 2 hx))
      rw [if_neg (pow_ne_zero 2 hx), if_pos ha]
      left
      rfl

/-- The concrete two-sample trace used by the C9 counterexample and
witness: channel values `[0, 2]`. -/
def snrCexTrace : ℕ → ℕ → ℝ := fun _ j => 2 * (j : ℝ)

/-- The channel `[0, 2]` has mean `1` and standard deviation `1`. -/
theorem snrCexTrace_std : npStd 2 (snrCexTrace 0) = 1 := by
  have harg : (∑ j ∈ Finset.range 2,
      (snrCexTrace 0 j - npMean 2 (snrCexTrace 0)) ^ 2) / (2:ℕ) = 1 := by
    simp [npMean, snrCexTrace, Finset.sum_range_succ]
    norm_num
  unfold npStd
  rw [harg, Real.sqrt_one]

/-- C9 counterexample: the channel `[0, 2]` has nonzero standard deviation
`1`, yet the SNR at its zero sample is `10*log10(0) = -inf`, which is not
finite. -/
theorem snr_tr_array_neg_inf_at_zero_sample :
    npStd 2 (snrCexTrace 0) ≠ 0 ∧
    snr_tr_array 2 snrCexTrace 0 0 = NpVal.ninf ∧
    ¬ NpVal.isFin (snr_tr_array 2 snrCexTrace 0 0) := by
  have hstd : npStd 2 (snrCexTrace 0) = 1 := snrCexTrace_std
  have hval : snr_tr_array 2 snrCexTrace 0 0 = NpVal.ninf := by
    unfold snr_tr_array npDiv
    have hb : npStd 2 (snrCexTrace 0) ^ 2 ≠ 0 := by
      rw [hstd]
      norm_num
    rw [if_neg hb]
    have ha : snrCexTrace 0 0 ^ 2 / npStd 2 (snrCexTrace 0) ^ 2 = 0 := by
      rw [hstd]
      norm_num [snrCexTrace]
    show npMulTen (npLog10 (NpVal.fin _)) = NpVal.ninf
    simp only [npLog10]
    rw [if_neg (show ¬ (0 < snrCexTrace 0 0 ^ 2 / npStd 2 (snrCexTrace 0) ^ 2) by
      rw [ha]; norm_num), if_pos ha]
    rfl
  refine ⟨by rw [hstd]; norm_num, hval, ?_⟩
  rw [hval]
  intro hc
  exact hc

/-- Witness for the amended C9: at the nonzero sample of the same channel
the SNR is finite. -/
theorem snr_tr_array_finite_and_sentinel_witness :
    npStd 2 (snrCexTrace 0) ≠ 0 ∧ snrCexTrace 0 1 ≠ 0 ∧
    NpVal.isFin (snr_tr_array 2 snrCexTrace 0 1) := by
  have h1 : npStd 2 (snrCexTrace 0) ≠ 0 := by
    rw [snrCexTrace_std]
    norm_num
  have h2 : snrCexTrace 0 1 ≠ 0 := by
    norm_num [snrCexTrace]
  exact ⟨h1, h2, (snr_tr_array_finite_and_sentinel 2 snrCexTrace 0 1).1 h1 h2⟩

end
